import Mathlib

/-!
Verification of the `Definition` / `MeaningPointer` schema-merge engine from
`src/lib/vector-core/src/schema/definition.rs`.

`MeaningPointer` is embedded generically over the path type `P` (the Rust code
uses `LookupBuf` paths and `BTreeSet` path sets; here path sets are `Finset P`).
-/

set_option maxHeartbeats 1000000
set_option linter.unusedSectionVars false
set_option linter.unusedVariables false

namespace VectorSchema

/-- Embedding of the Rust enum `MeaningPointer`: a semantic meaning either
resolves to exactly one path (`Valid`) or has become ambiguous and carries the
set of conflicting paths (`Invalid`). -/
inductive MeaningPointer (P : Type) where
  | Valid (path : P)
  | Invalid (paths : Finset P)
  deriving DecidableEq

/-- Embedding of `MeaningPointer::merge`.  `BTreeSet::from([lhs, rhs])` is the
two-element set, `rhs.insert(lhs)` is `insert lhs rhs`, and `lhs.extend(rhs)`
is set union. -/
def MeaningPointer.merge {P : Type} [DecidableEq P] :
    MeaningPointer P → MeaningPointer P → MeaningPointer P
  | .Valid lhs, .Valid rhs => if lhs = rhs then .Valid lhs else .Invalid {lhs, rhs}
  | .Valid lhs, .Invalid rhs => .Invalid (insert lhs rhs)
  | .Invalid lhs, .Valid rhs => .Invalid (insert rhs lhs)
  | .Invalid lhs, .Invalid rhs => .Invalid (lhs ∪ rhs)

/-- The set of paths a pointer refers to (`{p}` for `Valid p`). -/
def MeaningPointer.pathSet {P : Type} : MeaningPointer P → Finset P
  | .Valid p => {p}
  | .Invalid s => s

/-- Whether the pointer is in the `Valid` state. -/
def MeaningPointer.isValidPtr {P : Type} : MeaningPointer P → Bool
  | .Valid _ => true
  | .Invalid _ => false

namespace MeaningPointer

variable {P : Type} [DecidableEq P]

theorem pathSet_merge (a b : MeaningPointer P) :
    (a.merge b).pathSet = a.pathSet ∪ b.pathSet := by
  cases a with
  | Valid p =>
    cases b with
    | Valid q =>
      by_cases h : p = q
      · subst h; simp [merge, pathSet]
      · simp [merge, h, pathSet, Finset.insert_eq]
    | Invalid T => simp [merge, pathSet, Finset.insert_eq]
  | Invalid S =>
    cases b with
    | Valid q =>
      simp only [merge, pathSet]
      rw [Finset.insert_eq, Finset.union_comm]
    | Invalid T => simp [merge, pathSet]

theorem merge_eq_valid_iff {a b : MeaningPointer P} {p : P} :
    a.merge b = .Valid p ↔ a = .Valid p ∧ b = .Valid p := by
  cases a with
  | Valid x =>
    cases b with
    | Valid y =>
      by_cases h : x = y
      · subst h; simp [merge]
      · simp only [merge, if_neg h]
        constructor
        · intro hc; cases hc
        · rintro ⟨hx, hy⟩
          exact absurd (by rw [Valid.injEq] at hx hy; rw [hx, hy]) h
    | Invalid T => simp [merge]
  | Invalid S =>
    cases b <;> simp [merge]

theorem isValidPtr_eq_false_iff {a : MeaningPointer P} :
    a.isValidPtr = false ↔ ∀ p : P, a ≠ .Valid p := by
  cases a <;> simp [isValidPtr]

theorem ptr_ext {a b : MeaningPointer P}
    (hv : a.isValidPtr = b.isValidPtr) (hp : a.pathSet = b.pathSet) : a = b := by
  cases a with
  | Valid p =>
    cases b with
    | Valid q =>
      have : ({p} : Finset P) = {q} := hp
      have := Finset.singleton_injective this
      rw [this]
    | Invalid T => simp [isValidPtr] at hv
  | Invalid S =>
    cases b with
    | Valid q => simp [isValidPtr] at hv
    | Invalid T =>
      have : S = T := hp
      rw [this]

theorem merge_comm (a b : MeaningPointer P) : a.merge b = b.merge a := by
  cases a with
  | Valid p =>
    cases b with
    | Valid q =>
      by_cases h : p = q
      · subst h; rfl
      · simp [merge, h, Ne.symm h, Finset.pair_comm]
    | Invalid T => simp [merge]
  | Invalid S =>
    cases b with
    | Valid q => simp [merge]
    | Invalid T => simp [merge, Finset.union_comm]

theorem merge_assoc (a b c : MeaningPointer P) :
    (a.merge b).merge c = a.merge (b.merge c) := by
  by_cases h : ∃ p : P, a = .Valid p ∧ b = .Valid p ∧ c = .Valid p
  · obtain ⟨p, ha, hb, hc⟩ := h
    subst ha; subst hb; subst hc
    simp [merge]
  · apply ptr_ext
    · have hL : ((a.merge b).merge c).isValidPtr = false := by
        rw [isValidPtr_eq_false_iff]
        intro p hc
        rw [merge_eq_valid_iff] at hc
        rw [merge_eq_valid_iff] at hc
        exact h ⟨p, hc.1.1, hc.1.2, hc.2⟩
      have hR : (a.merge (b.merge c)).isValidPtr = false := by
        rw [isValidPtr_eq_false_iff]
        intro p hc
        rw [merge_eq_valid_iff] at hc
        obtain ⟨h1, h2⟩ := hc
        rw [merge_eq_valid_iff] at h2
        exact h ⟨p, h1, h2.1, h2.2⟩
      rw [hL, hR]
    · rw [pathSet_merge, pathSet_merge, pathSet_merge, pathSet_merge,
        Finset.union_assoc]

/-- Pointers reachable from `Valid` pointers by any sequence of `merge` steps. -/
inductive ReachableFromValid : MeaningPointer P → Prop where
  | valid (p : P) : ReachableFromValid (.Valid p)
  | step {a b : MeaningPointer P} : ReachableFromValid a → ReachableFromValid b →
      ReachableFromValid (a.merge b)

theorem reachable_invalid_card {m : MeaningPointer P}
    (hm : ReachableFromValid m) : ∀ S : Finset P, m = .Invalid S → 2 ≤ S.card := by
  induction hm with
  | valid p => intro S hS; cases hS
  | step ha hb iha ihb =>
    rename_i a b
    intro S hS
    cases a with
    | Valid p =>
      cases b with
      | Valid q =>
        by_cases hpq : p = q
        · subst hpq; simp [MeaningPointer.merge] at hS
        · simp only [MeaningPointer.merge, if_neg hpq] at hS
          cases hS
          rw [Finset.card_pair hpq]
      | Invalid T =>
        simp only [MeaningPointer.merge] at hS
        cases hS
        calc 2 ≤ T.card := ihb T rfl
          _ ≤ (insert p T).card := Finset.card_le_card (Finset.subset_insert _ _)
    | Invalid S' =>
      cases b with
      | Valid q =>
        simp only [MeaningPointer.merge] at hS
        cases hS
        calc 2 ≤ S'.card := iha S' rfl
          _ ≤ (insert q S').card := Finset.card_le_card (Finset.subset_insert _ _)
      | Invalid T =>
        simp only [MeaningPointer.merge] at hS
        cases hS
        calc 2 ≤ S'.card := iha S' rfl
          _ ≤ (S' ∪ T).card := Finset.card_le_card Finset.subset_union_left

theorem invalid_merge_grows (S : Finset P) (b : MeaningPointer P) :
    ∃ T : Finset P, (MeaningPointer.Invalid S).merge b = .Invalid T ∧ S ⊆ T := by
  cases b with
  | Valid q => exact ⟨insert q S, rfl, Finset.subset_insert _ _⟩
  | Invalid T => exact ⟨S ∪ T, rfl, Finset.subset_union_left⟩

end MeaningPointer

/-- Modelled from the spec: a path segment of the `PathExpression` collaborator
(`lookup::LookupBuf`, not under `src/`): field access, index access, or a
"coalesced" alternative segment, which this core's insertion rejects. -/
inductive Segment where
  | field (name : String)
  | index (i : Int)
  | coalesce (alts : List String)
  deriving DecidableEq

/-- Modelled from the spec: a `LookupBuf` path is an ordered sequence of
segments; the empty sequence is the root path. -/
abbrev LookupBuf : Type := List Segment

/-- Modelled from the spec: `LookupBuf::is_root` — true iff the path is empty. -/
def LookupBuf.is_root (p : LookupBuf) : Bool := p.isEmpty

/-- Whether a path contains a coalesced/alternative segment. -/
def LookupBuf.hasCoalesced : LookupBuf → Bool
  | [] => false
  | .coalesce _ :: _ => true
  | .field _ :: rest => hasCoalesced rest
  | .index _ :: rest => hasCoalesced rest

mutual
/-- Modelled from the spec: the `TypeLattice` collaborator (`value::Kind`, not
under `src/`): a structural type is a union of scalar kinds (a representative
sample is modelled) plus optional array-shaped and object-shaped
interpretations. -/
inductive Kind where
  | mk (bytes integer boolean knull : Bool) (array : Option AColl) (object : Option OColl)

/-- Modelled from the spec: an array-shaped collection: known per-index types
plus the catch-all "unknown" component. -/
inductive AColl where
  | mk (known : List (Int × Kind)) (unknown : Option Unknown)

/-- Modelled from the spec: an object-shaped collection: known fields plus the
catch-all "unknown fields" component. -/
inductive OColl where
  | mk (known : List (String × Kind)) (unknown : Option Unknown)

/-- Modelled from the spec: the catch-all type for undeclared fields/indices:
either unconstrained ("any") or an exact kind. -/
inductive Unknown where
  | uany
  | uexact (k : Kind)
end

def Kind.bytes : Kind → Bool
  | .mk b _ _ _ _ _ => b

def Kind.integer : Kind → Bool
  | .mk _ i _ _ _ _ => i

def Kind.boolean : Kind → Bool
  | .mk _ _ bo _ _ _ => bo

def Kind.knull : Kind → Bool
  | .mk _ _ _ n _ _ => n

def Kind.array : Kind → Option AColl
  | .mk _ _ _ _ a _ => a

def Kind.object : Kind → Option OColl
  | .mk _ _ _ _ _ o => o

def OColl.known : OColl → List (String × Kind)
  | .mk kn _ => kn

def OColl.unknown : OColl → Option Unknown
  | .mk _ u => u

def AColl.known : AColl → List (Int × Kind)
  | .mk kn _ => kn

def AColl.unknown : AColl → Option Unknown
  | .mk _ u => u

/-- Modelled from the spec: `Collection::set_unknown` — sets the catch-all type
applied to undeclared fields/indices, leaving known fields untouched. -/
def OColl.set_unknown (oc : OColl) (u : Option Kind) : OColl :=
  .mk oc.known (u.map .uexact)

/-- Modelled from the spec: `Collection::set_unknown` for the array
interpretation. -/
def AColl.set_unknown (ac : AColl) (u : Option Kind) : AColl :=
  .mk ac.known (u.map .uexact)

/-- The empty structural type (no possible shape); the starting point when a
nested insertion creates a fresh child. -/
def Kind.never : Kind := .mk false false false false none none

/-- Modelled from the spec: `Kind::any` — the unconstrained "any" shape. -/
def Kind.any : Kind :=
  .mk true true true true (some (.mk [] (some .uany))) (some (.mk [] (some .uany)))

/-- Modelled from the spec: `Kind::any_object` — an object with any fields. -/
def Kind.any_object : Kind := .mk false false false false none (some (.mk [] (some .uany)))

/-- Modelled from the spec: `Kind::object` — a pure object with the given known
fields. -/
def Kind.objectKind (known : List (String × Kind)) : Kind :=
  .mk false false false false none (some (.mk known none))

/-- A pure object kind built from an object collection; the `.into()`
conversion applied to the result of `into_object`. -/
def Kind.onlyObject (oc : OColl) : Kind := .mk false false false false none (some oc)

/-- A pure array kind built from an array collection. -/
def Kind.onlyArray (ac : AColl) : Kind := .mk false false false false (some ac) none

/-- Modelled from the spec: the scalar string ("bytes") kind. -/
def Kind.bytesKind : Kind := .mk true false false false none none

/-- Modelled from the spec: the scalar boolean kind. -/
def Kind.booleanKind : Kind := .mk false false true false none none

/-- Modelled from the spec: `Kind::or_null` — widens a type to also admit
"null"/absence. -/
def Kind.or_null : Kind → Kind
  | .mk b i bo _ a o => .mk b i bo true a o

/-- Modelled from the spec: `Kind::into_object` — fails (`none`) iff the value
cannot be interpreted as an object shape, otherwise yields the object
collection. -/
def Kind.into_object (k : Kind) : Option OColl := k.object

/-- Replace the object interpretation of a kind. -/
def Kind.withObject : Kind → Option OColl → Kind
  | .mk b i bo n a _, o => .mk b i bo n a o

/-- Replace the array interpretation of a kind. -/
def Kind.withArray : Kind → Option AColl → Kind
  | .mk b i bo n _ o, a => .mk b i bo n a o

/-- Association-list lookup for known fields/indices. -/
def lookupKV {κ : Type} [DecidableEq κ] (key : κ) : List (κ × Kind) → Option Kind
  | [] => none
  | e :: rest => if e.1 = key then some e.2 else lookupKV key rest

/-- Association-list insert-or-replace for known fields/indices. -/
def insertKV {κ : Type} [DecidableEq κ] (key : κ) (v : Kind) :
    List (κ × Kind) → List (κ × Kind)
  | [] => [(key, v)]
  | e :: rest => if e.1 = key then (key, v) :: rest else e :: insertKV key v rest

/-- Modelled from the spec: `Kind::insert_at_path` with the fixed strategy used
by `Definition::with_field` (`inner_conflict = Replace`, `leaf_conflict =
Replace`, `coalesced_path = Reject`): fails iff the path contains a coalesced
segment; the inserted type replaces an existing terminal type, and an existing
non-object (resp. non-array) type at an intermediate segment is replaced by a
fresh collection. -/
def Kind.insert_at_path (self : Kind) (path : LookupBuf) (kind : Kind) : Option Kind :=
  match path with
  | [] => some kind
  | .field f :: rest =>
    let oc := self.object.getD (.mk [] none)
    let child := (lookupKV f oc.known).getD Kind.never
    match Kind.insert_at_path child rest kind with
    | none => none
    | some c2 => some (Kind.onlyObject (.mk (insertKV f c2 oc.known) oc.unknown))
  | .index i :: rest =>
    let ac := self.array.getD (.mk [] none)
    let child := (lookupKV i ac.known).getD Kind.never
    match Kind.insert_at_path child rest kind with
    | none => none
    | some c2 => some (Kind.onlyArray (.mk (insertKV i c2 ac.known) ac.unknown))
  | .coalesce _ :: _ => none

/-- Modelled from the spec: `Kind::find_known_at_path` — confirms whether a
path resolves to a statically known location in the structural type; errors on
a coalesced segment, returns `none` when the path walks through an absent
interpretation or an undeclared field/index. -/
def Kind.find_known_at_path (self : Kind) (path : LookupBuf) : Except Unit (Option Kind) :=
  match path with
  | [] => .ok (some self)
  | .field f :: rest =>
    match self.object with
    | none => .ok none
    | some oc =>
      match lookupKV f oc.known with
      | none => .ok none
      | some c => Kind.find_known_at_path c rest
  | .index i :: rest =>
    match self.array with
    | none => .ok none
    | some ac =>
      match lookupKV i ac.known with
      | none => .ok none
      | some c => Kind.find_known_at_path c rest
  | .coalesce _ :: _ => .error ()

/-- Association-list removal of a key, used while merging known fields. -/
def eraseKV {κ : Type} [DecidableEq κ] (key : κ) : List (κ × Kind) → List (κ × Kind)
  | [] => []
  | e :: rest => if e.1 = key then rest else e :: eraseKV key rest

theorem lookupKV_sizeOf {κ : Type} [DecidableEq κ] [SizeOf κ] (key : κ) :
    ∀ (l : List (κ × Kind)) (v : Kind), lookupKV key l = some v → sizeOf v < sizeOf l := by
  intro l
  induction l with
  | nil => intro v h; simp [lookupKV] at h
  | cons e rest ih =>
    intro v h
    obtain ⟨a, b⟩ := e
    by_cases he : a = key
    · simp only [lookupKV, if_pos he] at h
      injection h with h
      subst h
      simp only [List.cons.sizeOf_spec, Prod.mk.sizeOf_spec]
      omega
    · simp only [lookupKV, if_neg he] at h
      have := ih v h
      simp only [List.cons.sizeOf_spec, Prod.mk.sizeOf_spec]
      omega

theorem eraseKV_sizeOf {κ : Type} [DecidableEq κ] [SizeOf κ] (key : κ) :
    ∀ l : List (κ × Kind), sizeOf (eraseKV key l) ≤ sizeOf l := by
  intro l
  induction l with
  | nil => simp [eraseKV]
  | cons e rest ih =>
    obtain ⟨a, b⟩ := e
    by_cases he : a = key
    · simp only [eraseKV, if_pos he, List.cons.sizeOf_spec, Prod.mk.sizeOf_spec]
      omega
    · simp only [eraseKV, if_neg he, List.cons.sizeOf_spec, Prod.mk.sizeOf_spec]
      omega

mutual
/-- Modelled from the spec: `Kind::merge` with the fixed strategy used by
`Definition::merge` (`depth = Deep`, `indices = Keep`): the structural union of
the two shapes — scalar possibilities are or-ed, collections are merged
recursively, and per-index array information from both operands is kept. -/
def Kind.merge : Kind → Kind → Kind
  | .mk b1 i1 bo1 n1 a1 o1, .mk b2 i2 bo2 n2 a2 o2 =>
    .mk (b1 || b2) (i1 || i2) (bo1 || bo2) (n1 || n2)
      (match a1, a2 with
        | none, a => a
        | some c, none => some c
        | some c1, some c2 => some (AColl.merge c1 c2))
      (match o1, o2 with
        | none, o => o
        | some c, none => some c
        | some c1, some c2 => some (OColl.merge c1 c2))
  termination_by k1 k2 => sizeOf k1 + sizeOf k2

/-- Deep merge of two array collections (per-index kinds kept and merged). -/
def AColl.merge : AColl → AColl → AColl
  | .mk k1 u1, .mk k2 u2 => .mk (mergeKnownInt k1 k2) (mergeUnknownOpt u1 u2)
  termination_by c1 c2 => sizeOf c1 + sizeOf c2

/-- Deep merge of two object collections. -/
def OColl.merge : OColl → OColl → OColl
  | .mk k1 u1, .mk k2 u2 => .mk (mergeKnownStr k1 k2) (mergeUnknownOpt u1 u2)
  termination_by c1 c2 => sizeOf c1 + sizeOf c2

/-- Keyed union of two known-field maps, recursively merging kinds bound to a
key present on both sides. -/
def mergeKnownStr : List (String × Kind) → List (String × Kind) → List (String × Kind)
  | [], l2 => l2
  | (a, v1) :: rest, l2 =>
    match h : lookupKV a l2 with
    | some v2 => (a, Kind.merge v1 v2) :: mergeKnownStr rest (eraseKV a l2)
    | none => (a, v1) :: mergeKnownStr rest l2
  termination_by l1 l2 => sizeOf l1 + sizeOf l2
  decreasing_by
  · simp only [List.cons.sizeOf_spec, Prod.mk.sizeOf_spec]
    have h1 := lookupKV_sizeOf a l2 v2 h
    omega
  · simp only [List.cons.sizeOf_spec, Prod.mk.sizeOf_spec]
    have h1 := eraseKV_sizeOf a l2
    omega
  · simp only [List.cons.sizeOf_spec, Prod.mk.sizeOf_spec]
    omega

/-- Keyed union of two known-index maps, recursively merging kinds bound to an
index present on both sides. -/
def mergeKnownInt : List (Int × Kind) → List (Int × Kind) → List (Int × Kind)
  | [], l2 => l2
  | (a, v1) :: rest, l2 =>
    match h : lookupKV a l2 with
    | some v2 => (a, Kind.merge v1 v2) :: mergeKnownInt rest (eraseKV a l2)
    | none => (a, v1) :: mergeKnownInt rest l2
  termination_by l1 l2 => sizeOf l1 + sizeOf l2
  decreasing_by
  · simp only [List.cons.sizeOf_spec, Prod.mk.sizeOf_spec]
    have h1 := lookupKV_sizeOf a l2 v2 h
    omega
  · simp only [List.cons.sizeOf_spec, Prod.mk.sizeOf_spec]
    have h1 := eraseKV_sizeOf a l2
    omega
  · simp only [List.cons.sizeOf_spec, Prod.mk.sizeOf_spec]
    omega

/-- Union of two optional catch-all components. -/
def mergeUnknownOpt : Option Unknown → Option Unknown → Option Unknown
  | none, u => u
  | some u, none => some u
  | some u1, some u2 => some (Unknown.merge u1 u2)
  termination_by u1 u2 => sizeOf u1 + sizeOf u2

/-- Union of two catch-all components; "any" absorbs everything else. -/
def Unknown.merge : Unknown → Unknown → Unknown
  | .uany, _ => .uany
  | _, .uany => .uany
  | .uexact k1, .uexact k2 => .uexact (Kind.merge k1 k2)
  termination_by u1 u2 => sizeOf u1 + sizeOf u2
end

/-- Embedding of `crate::config::LogNamespace` (declared outside `src/`): an
opaque namespace-dialect tag with exactly the two dialects the source refers
to. -/
inductive LogNamespace where
  | Legacy
  | Vector
  deriving DecidableEq

/-- The meaning map of a `Definition`: Rust's `BTreeMap<String, MeaningPointer>`
embedded as an association list with distinct keys. -/
abbrev MeaningMap : Type := AList fun _ : String => MeaningPointer LookupBuf

/-- Embedding of the Rust struct `Definition`: the structural type of the
event, the semantic meanings assigned to paths within it, and the set of log
namespaces the definition can be for. -/
structure Definition where
  kind : Kind
  meaning : MeaningMap
  log_namespaces : Finset LogNamespace

/-- Embedding of `Definition::empty_kind`. -/
def Definition.empty_kind (kind : Kind) (log_namespaces : Finset LogNamespace) : Definition :=
  { kind := kind, meaning := ∅, log_namespaces := log_namespaces }

/-- Embedding of `Definition::any`. -/
def Definition.any : Definition :=
  Definition.empty_kind Kind.any {LogNamespace.Legacy, LogNamespace.Vector}

/-- Embedding of `Definition::legacy_default`. -/
def Definition.legacy_default : Definition :=
  Definition.empty_kind Kind.any_object {LogNamespace.Legacy}

/-- Embedding of `Definition::default_for_namespace`. -/
def Definition.default_for_namespace (log_namespaces : Finset LogNamespace) : Definition :=
  if LogNamespace.Legacy ∈ log_namespaces then
    if LogNamespace.Vector ∈ log_namespaces then
      Definition.empty_kind Kind.any {LogNamespace.Legacy, LogNamespace.Vector}
    else Definition.legacy_default
  else
    if LogNamespace.Vector ∈ log_namespaces then
      Definition.empty_kind Kind.any {LogNamespace.Vector}
    else Definition.empty_kind Kind.any ∅

/-- Embedding of `Definition::with_field`.  The Rust method panics on a
non-root path whose root type cannot be coerced to an object, and on a failing
structural insertion; both fatal failures are embedded as `none`. -/
def Definition.with_field (self : Definition) (path : LookupBuf) (kind : Kind)
    (meaning : Option String) : Option Definition :=
  (if LookupBuf.is_root path then some self.kind
   else (self.kind.into_object).map Kind.onlyObject).bind fun k =>
  (k.insert_at_path path kind).map fun k2 =>
    { kind := k2
      meaning :=
        match meaning with
        | some m => self.meaning.insert m (.Valid path)
        | none => self.meaning
      log_namespaces := self.log_namespaces }

/-- Embedding of `Definition::optional_field`: exactly `with_field` after
widening the kind with `or_null`. -/
def Definition.optional_field (self : Definition) (path : LookupBuf) (kind : Kind)
    (meaning : Option String) : Option Definition :=
  self.with_field path kind.or_null meaning

/-- Embedding of `Definition::with_known_meaning`.  The Rust method asserts
`self.kind.find_known_at_path(path).ok().flatten().is_some()`; the failing
assertion is embedded as `none`. -/
def Definition.with_known_meaning (self : Definition) (path : LookupBuf)
    (meaning : String) : Option Definition :=
  match self.kind.find_known_at_path path with
  | .ok (some _) =>
    some { self with meaning := self.meaning.insert meaning (.Valid path) }
  | .ok none => none
  | .error _ => none

/-- Embedding of `Definition::unknown_fields`: sets the catch-all kind on the
object-shaped interpretation (if any) and on the array-shaped interpretation
(if any). -/
def Definition.unknown_fields (self : Definition) (unknown : Option Kind) : Definition :=
  let k1 :=
    match self.kind.object with
    | some oc => self.kind.withObject (some (oc.set_unknown unknown))
    | none => self.kind
  let k2 :=
    match k1.array with
    | some ac => k1.withArray (some (ac.set_unknown unknown))
    | none => k1
  { self with kind := k2 }

/-- One step of the meaning-merging loop in `Definition::merge`: for an entry
`(other_id, other_meaning)` of `other`, replace the accumulated map's binding
by the pointer merge when the key is present, by `other_meaning` otherwise. -/
def mergeMeaningStep (acc : MeaningMap)
    (e : Sigma fun _ : String => MeaningPointer LookupBuf) : MeaningMap :=
  let m :=
    match acc.lookup e.1 with
    | some this_m => this_m.merge e.2
    | none => e.2
  acc.insert e.1 m

/-- Embedding of `Definition::merge`: meanings combine entry by entry over
`other`'s map, kinds combine via the deep/keep structural merge, and (as in the
source) `log_namespaces` is simply `self`'s set. -/
def Definition.merge (self other : Definition) : Definition :=
  { kind := self.kind.merge other.kind
    meaning := other.meaning.entries.foldl mergeMeaningStep self.meaning
    log_namespaces := self.log_namespaces }

/-- Embedding of `Definition::meaning_path`. -/
def Definition.meaning_path (self : Definition) (meaning : String) : Option LookupBuf :=
  match self.meaning.lookup meaning with
  | some (.Valid path) => some path
  | none => none
  | some (.Invalid _) => none

/-- Embedding of `Definition::invalid_meaning`. -/
def Definition.invalid_meaning (self : Definition) (meaning : String) :
    Option (Finset LookupBuf) :=
  match self.meaning.lookup meaning with
  | some (.Invalid paths) => some paths
  | none => none
  | some (.Valid _) => none

/-- Embedding of `Definition::meanings`: the (name, path) pairs of the `Valid`
entries, `Invalid` entries silently excluded (the Rust iterator embedded as the
list it produces). -/
def Definition.meanings (self : Definition) : List (String × LookupBuf) :=
  self.meaning.entries.filterMap fun e =>
    match e.2 with
    | .Valid path => some (e.1, path)
    | .Invalid _ => none

/-- C1: `MeaningPointer::merge` follows the specified case table: merging
`Valid p` with `Valid p` yields `Valid p`; `Valid p` with `Valid q` (`p ≠ q`)
yields `Invalid {p, q}`; `Valid p` with `Invalid S` yields `Invalid (S ∪ {p})`;
`Invalid S` with `Valid q` yields `Invalid (S ∪ {q})`; `Invalid S` with
`Invalid T` yields `Invalid (S ∪ T)`. -/
theorem C1_meaning_pointer_merge_table {P : Type} [DecidableEq P]
    (p q : P) (S T : Finset P) (hpq : p ≠ q) :
    (MeaningPointer.Valid p).merge (.Valid p) = .Valid p ∧
    (MeaningPointer.Valid p).merge (.Valid q) = .Invalid {p, q} ∧
    (MeaningPointer.Valid p).merge (.Invalid S) = .Invalid (S ∪ {p}) ∧
    (MeaningPointer.Invalid S).merge (.Valid q) = .Invalid (S ∪ {q}) ∧
    (MeaningPointer.Invalid S).merge (.Invalid T) = .Invalid (S ∪ T) := by
  refine ⟨by simp [MeaningPointer.merge], by simp [MeaningPointer.merge, hpq], ?_, ?_, rfl⟩
  · show MeaningPointer.Invalid (insert p S) = .Invalid (S ∪ {p})
    rw [Finset.union_comm, ← Finset.insert_eq]
  · show MeaningPointer.Invalid (insert q S) = .Invalid (S ∪ {q})
    rw [Finset.union_comm, ← Finset.insert_eq]

/-- Witness for C1 at `p = 0`, `q = 1`, `S = {5, 6}`, `T = {7}`. -/
theorem C1_meaning_pointer_merge_table_witness :
    (MeaningPointer.Valid (0 : ℕ)).merge (.Valid 0) = .Valid 0 ∧
    (MeaningPointer.Valid (0 : ℕ)).merge (.Valid 1) = .Invalid {0, 1} ∧
    (MeaningPointer.Valid (0 : ℕ)).merge (.Invalid {5, 6}) = .Invalid ({5, 6} ∪ {0}) ∧
    (MeaningPointer.Invalid ({5, 6} : Finset ℕ)).merge (.Valid 1) = .Invalid ({5, 6} ∪ {1}) ∧
    (MeaningPointer.Invalid ({5, 6} : Finset ℕ)).merge (.Invalid {7}) = .Invalid ({5, 6} ∪ {7}) :=
  C1_meaning_pointer_merge_table 0 1 {5, 6} {7} (by decide)

/-- C2: `MeaningPointer::merge` is commutative and associative for all
combinations of `Valid` and `Invalid` values. -/
theorem C2_meaning_pointer_merge_comm_assoc {P : Type} [DecidableEq P]
    (a b c : MeaningPointer P) :
    a.merge b = b.merge a ∧ (a.merge b).merge c = a.merge (b.merge c) :=
  ⟨MeaningPointer.merge_comm a b, MeaningPointer.merge_assoc a b c⟩

/-- C3 counterexample: `Definition::merge` keeps only `self`'s namespace set;
merging a `{Legacy}` definition with a `{Vector}` definition yields `{Legacy}`,
so the `Vector` tag present in the second input is absent from the result (its
`decide` is `false`), refuting the claimed union. -/
theorem C3_namespace_union_counterexample :
    ((Definition.empty_kind Kind.booleanKind {LogNamespace.Legacy}).merge
        (Definition.empty_kind Kind.booleanKind {LogNamespace.Vector})).log_namespaces
      = {LogNamespace.Legacy} ∧
    decide (LogNamespace.Vector ∈
      (Definition.empty_kind Kind.booleanKind {LogNamespace.Vector}).log_namespaces) = true ∧
    decide (LogNamespace.Vector ∈
      ((Definition.empty_kind Kind.booleanKind {LogNamespace.Legacy}).merge
        (Definition.empty_kind Kind.booleanKind {LogNamespace.Vector})).log_namespaces)
      = false :=
  ⟨rfl, by decide, by decide⟩

/-- C3 (amended): the namespace set of `d1.merge d2` equals `d1`'s namespace
set unchanged; the right-hand operand's namespaces are discarded rather than
unioned in. -/
theorem C3_merge_namespaces_amended (d1 d2 : Definition) :
    (d1.merge d2).log_namespaces = d1.log_namespaces := rfl

/-- C5: every pointer reachable from `Valid` pointers by `merge` steps that is
in the `Invalid` state carries at least two distinct paths, and merging an
`Invalid` pointer with anything yields an `Invalid` pointer whose path set only
grew (never a `Valid` one). -/
theorem C5_invalid_invariant {P : Type} [DecidableEq P] :
    (∀ m : MeaningPointer P, MeaningPointer.ReachableFromValid m →
      ∀ S : Finset P, m = .Invalid S → 2 ≤ S.card) ∧
    (∀ (S : Finset P) (b : MeaningPointer P),
      ∃ T : Finset P, (MeaningPointer.Invalid S).merge b = .Invalid T ∧ S ⊆ T) :=
  ⟨fun _ h => MeaningPointer.reachable_invalid_card h, MeaningPointer.invalid_merge_grows⟩

/-- Witness for C5: the pointer `(Valid 0).merge (Valid 1) = Invalid {0, 1}` is
reachable and its path set has two elements, and merging `Invalid {0, 1}` with
`Valid 2` stays `Invalid` with a superset path set. -/
theorem C5_invalid_invariant_witness :
    2 ≤ ({0, 1} : Finset ℕ).card ∧
    (∃ T : Finset ℕ, (MeaningPointer.Invalid {0, 1}).merge (.Valid 2) = .Invalid T ∧
      {0, 1} ⊆ T) :=
  ⟨C5_invalid_invariant.1 ((MeaningPointer.Valid 0).merge (.Valid 1))
      (.step (.valid 0) (.valid 1)) {0, 1} (by decide),
    C5_invalid_invariant.2 {0, 1} (.Valid 2)⟩

theorem foldl_mergeMeaningStep_lookup
    (l : List (Sigma fun _ : String => MeaningPointer LookupBuf))
    (hl : l.NodupKeys) (acc : MeaningMap) (n : String) :
    (l.foldl mergeMeaningStep acc).lookup n =
      match l.dlookup n, acc.lookup n with
      | some v, some a => some (a.merge v)
      | some v, none => some v
      | none, x => x := by
  induction l generalizing acc with
  | nil => rfl
  | cons e rest ih =>
    obtain ⟨hk, hrest⟩ := List.nodupKeys_cons.1 hl
    obtain ⟨a, v⟩ := e
    simp only [List.foldl_cons]
    rw [ih hrest]
    by_cases hne : n = a
    · subst hne
      have h1 : rest.dlookup n = none := List.dlookup_eq_none.2 hk
      have h2 : (Sigma.mk n v :: rest).dlookup n = some v := List.dlookup_cons_eq rest n v
      rw [h1, h2]
      show (mergeMeaningStep acc ⟨n, v⟩).lookup n = _
      unfold mergeMeaningStep
      cases hacc : acc.lookup n with
      | none => simp [hacc, AList.lookup_insert]
      | some m0 => simp [hacc, AList.lookup_insert]
    · have h2 : (Sigma.mk a v :: rest).dlookup n = rest.dlookup n :=
        List.dlookup_cons_ne rest ⟨a, v⟩ hne
      rw [h2]
      have h3 : (mergeMeaningStep acc ⟨a, v⟩).lookup n = acc.lookup n := by
        unfold mergeMeaningStep
        cases hacc : acc.lookup a <;> simp [hacc, AList.lookup_insert_ne hne]
      rw [h3]

/-- C4: the meanings map of `d1.merge d2` is the keyed union of the two inputs'
maps: a name present in exactly one input keeps that input's pointer unchanged,
and a name present in both is bound to `MeaningPointer::merge` of the two
pointers. -/
theorem C4_merge_meanings_keyed_union (d1 d2 : Definition) (n : String) :
    (d1.merge d2).meaning.lookup n =
      match d1.meaning.lookup n, d2.meaning.lookup n with
      | some a, some b => some (a.merge b)
      | some a, none => some a
      | none, some b => some b
      | none, none => none := by
  show (d2.meaning.entries.foldl mergeMeaningStep d1.meaning).lookup n = _
  rw [foldl_mergeMeaningStep_lookup d2.meaning.entries d2.meaning.nodupKeys d1.meaning n]
  show (match d2.meaning.lookup n, d1.meaning.lookup n with
        | some v, some a => some (a.merge v)
        | some v, none => some v
        | none, x => x) = _
  cases d1.meaning.lookup n <;> cases d2.meaning.lookup n <;> rfl

theorem insert_at_path_isSome :
    ∀ (p : LookupBuf) (k v : Kind),
      (k.insert_at_path p v).isSome = !(LookupBuf.hasCoalesced p) := by
  intro p
  induction p with
  | nil => intro k v; rfl
  | cons s rest ih =>
    intro k v
    cases s with
    | field f =>
      simp only [Kind.insert_at_path]
      cases hrec : Kind.insert_at_path
          ((lookupKV f ((Kind.object k).getD (OColl.mk [] none)).known).getD Kind.never)
          rest v with
      | none =>
        have h := ih ((lookupKV f ((Kind.object k).getD (OColl.mk [] none)).known).getD
          Kind.never) v
        rw [hrec] at h
        simpa [LookupBuf.hasCoalesced] using h
      | some c2 =>
        have h := ih ((lookupKV f ((Kind.object k).getD (OColl.mk [] none)).known).getD
          Kind.never) v
        rw [hrec] at h
        simpa [LookupBuf.hasCoalesced] using h
    | index i =>
      simp only [Kind.insert_at_path]
      cases hrec : Kind.insert_at_path
          ((lookupKV i ((Kind.array k).getD (AColl.mk [] none)).known).getD Kind.never)
          rest v with
      | none =>
        have h := ih ((lookupKV i ((Kind.array k).getD (AColl.mk [] none)).known).getD
          Kind.never) v
        rw [hrec] at h
        simpa [LookupBuf.hasCoalesced] using h
      | some c2 =>
        have h := ih ((lookupKV i ((Kind.array k).getD (AColl.mk [] none)).known).getD
          Kind.never) v
        rw [hrec] at h
        simpa [LookupBuf.hasCoalesced] using h
    | coalesce alts => rfl

theorem insert_at_path_eq_none_iff (p : LookupBuf) (k v : Kind) :
    k.insert_at_path p v = none ↔ LookupBuf.hasCoalesced p = true := by
  have h := insert_at_path_isSome p k v
  cases hx : k.insert_at_path p v <;> rw [hx] at h <;>
    simp at h <;> simp [h]

/-- C6: a fresh registration through `with_field` or `with_known_meaning`,
whenever it succeeds, unconditionally binds the meaning name to `Valid path` —
overwriting any prior pointer, `Invalid` included — so `meaning_path` yields
the new path afterwards. -/
theorem C6_registration_overwrites (d : Definition) (p : LookupBuf) (t : Kind)
    (m : String) :
    (∀ d', d.with_field p t (some m) = some d' → d'.meaning_path m = some p) ∧
    (∀ d', d.with_known_meaning p m = some d' → d'.meaning_path m = some p) := by
  constructor
  · intro d' h
    simp only [Definition.with_field, Option.bind_eq_some, Option.map_eq_some'] at h
    obtain ⟨k, hk, k2, hk2, hd'⟩ := h
    subst hd'
    simp [Definition.meaning_path, AList.lookup_insert]
  · intro d' h
    unfold Definition.with_known_meaning at h
    cases hf : d.kind.find_known_at_path p with
    | ok o =>
      cases o with
      | none => rw [hf] at h; cases h
      | some k0 =>
        rw [hf] at h
        injection h with h
        subst h
        simp [Definition.meaning_path, AList.lookup_insert]
    | error e => rw [hf] at h; cases h

/-- The path `a` as a `LookupBuf`. -/
def wPathA : LookupBuf := [Segment.field "a"]

/-- The path `b` as a `LookupBuf`. -/
def wPathB : LookupBuf := [Segment.field "b"]

/-- The path `c` as a `LookupBuf`. -/
def wPathC : LookupBuf := [Segment.field "c"]

/-- A definition whose meaning `x` is already `Invalid {a, b}`, over an "any
object" structural type. -/
def wDefInvalidX : Definition :=
  { kind := Kind.any_object
    meaning := (∅ : MeaningMap).insert "x" (.Invalid {wPathA, wPathB})
    log_namespaces := ∅ }

/-- A definition with a known field `a` whose meaning `x` is already
`Invalid {b, c}`. -/
def wDefKnownA : Definition :=
  { kind := Kind.objectKind [("a", Kind.booleanKind)]
    meaning := (∅ : MeaningMap).insert "x" (.Invalid {wPathB, wPathC})
    log_namespaces := ∅ }

/-- Witness for C6: registering meaning `x` afresh via `with_field` at path `c`
(resp. via `with_known_meaning` at the known path `a`) succeeds and resets the
previously `Invalid` pointer to the new path. -/
theorem C6_registration_overwrites_witness :
    (wDefInvalidX.with_field wPathC Kind.booleanKind (some "x")).elim False
      (fun d' => d'.meaning_path "x" = some wPathC) ∧
    (wDefKnownA.with_known_meaning wPathA "x").elim False
      (fun d' => d'.meaning_path "x" = some wPathA) := by
  constructor
  · cases h : wDefInvalidX.with_field wPathC Kind.booleanKind (some "x") with
    | none =>
      have hs : (wDefInvalidX.with_field wPathC Kind.booleanKind (some "x")).isSome = true := rfl
      rw [h] at hs
      exact Bool.noConfusion hs
    | some d' =>
      exact (C6_registration_overwrites wDefInvalidX wPathC Kind.booleanKind "x").1 d' h
  · cases h : wDefKnownA.with_known_meaning wPathA "x" with
    | none =>
      have hs : (wDefKnownA.with_known_meaning wPathA "x").isSome = true := rfl
      rw [h] at hs
      exact Bool.noConfusion hs
    | some d' =>
      exact (C6_registration_overwrites wDefKnownA wPathA Kind.booleanKind "x").2 d' h

/-- C7: `with_field` fails fatally exactly when the path is non-root and the
current structural type cannot be interpreted as an object, or when the
structural insertion itself fails (in this model: the path contains a coalesced
segment); `with_known_meaning` fails fatally exactly when
`find_known_at_path(path).ok().flatten()` is not `some`; under the
complementary preconditions neither operation fails. -/
theorem C7_fatal_failure_conditions (d : Definition) (p : LookupBuf) (t : Kind)
    (m : Option String) (n : String) :
    (d.with_field p t m = none ↔
      (LookupBuf.is_root p = false ∧ d.kind.into_object = none) ∨
        LookupBuf.hasCoalesced p = true) ∧
    (d.with_known_meaning p n = none ↔
      (d.kind.find_known_at_path p).toOption.join = none) := by
  constructor
  · by_cases hroot : LookupBuf.is_root p = true
    · simp only [Definition.with_field, hroot, if_pos, Option.some_bind]
      rw [Option.map_eq_none']
      rw [insert_at_path_eq_none_iff]
      simp [hroot]
    · have hroot' : LookupBuf.is_root p = false := by
        cases hx : LookupBuf.is_root p
        · rfl
        · exact absurd hx hroot
      simp only [Definition.with_field, hroot', Bool.false_eq_true, if_neg,
        not_false_eq_true]
      cases hobj : d.kind.into_object with
      | none => simp [hroot']
      | some oc =>
        simp only [Option.map_some', Option.some_bind, Option.map_eq_none']
        rw [insert_at_path_eq_none_iff]
        simp [hroot', hobj]
  · unfold Definition.with_known_meaning
    cases hf : d.kind.find_known_at_path p with
    | ok o =>
      cases o with
      | none => simp [Except.toOption]
      | some k0 => simp [Except.toOption]
    | error e => simp [Except.toOption]

/-- C8: `optional_field` is exactly `with_field` after widening the kind with
`or_null`; the resulting definitions (structural type, meanings, namespaces,
and success/failure) are identical for every input. -/
theorem C8_optional_field_refines_with_field (d : Definition) (p : LookupBuf)
    (t : Kind) (m : Option String) :
    d.optional_field p t m = d.with_field p t.or_null m := rfl

/-- C9: the queries are determined by the stored pointer: `meaning_path` is
`some p` iff the pointer is `Valid p`; `invalid_meaning` is `some S` iff the
pointer is `Invalid S`; and `meanings` enumerates exactly the pairs whose
pointer is `Valid`, silently excluding `Invalid` entries.  (All three are pure
functions of the definition; none changes it.) -/
theorem C9_query_semantics (d : Definition) (n : String) (p : LookupBuf)
    (S : Finset LookupBuf) :
    (d.meaning_path n = some p ↔ d.meaning.lookup n = some (.Valid p)) ∧
    (d.invalid_meaning n = some S ↔ d.meaning.lookup n = some (.Invalid S)) ∧
    ((n, p) ∈ d.meanings ↔ d.meaning.lookup n = some (.Valid p)) := by
  refine ⟨?_, ?_, ?_⟩
  · unfold Definition.meaning_path
    cases hl : d.meaning.lookup n with
    | none => simp
    | some ptr => cases ptr <;> simp
  · unfold Definition.invalid_meaning
    cases hl : d.meaning.lookup n with
    | none => simp
    | some ptr => cases ptr <;> simp
  · unfold Definition.meanings
    rw [List.mem_filterMap]
    constructor
    · rintro ⟨e, he, hf⟩
      obtain ⟨a, ptr⟩ := e
      cases ptr with
      | Valid path =>
        simp only [Prod.mk.injEq, Option.some.injEq] at hf
        obtain ⟨ha, hpath⟩ := hf
        subst ha; subst hpath
        exact Option.mem_def.mp (AList.mem_lookup_iff.2 he)
      | Invalid s => cases hf
    · intro hl
      refine ⟨⟨n, .Valid p⟩, ?_, rfl⟩
      exact AList.mem_lookup_iff.1 (by rw [hl]; rfl)

/-- Witness for C9 at a concrete definition holding one `Valid` and one
`Invalid` entry. -/
theorem C9_query_semantics_witness :
    (wDefKnownA.meaning_path "x" = some wPathA ↔
      wDefKnownA.meaning.lookup "x" = some (.Valid wPathA)) ∧
    (wDefKnownA.invalid_meaning "x" = some {wPathB, wPathC} ↔
      wDefKnownA.meaning.lookup "x" = some (.Invalid {wPathB, wPathC})) ∧
    (("x", wPathA) ∈ wDefKnownA.meanings ↔
      wDefKnownA.meaning.lookup "x" = some (.Valid wPathA)) :=
  C9_query_semantics wDefKnownA "x" wPathA {wPathB, wPathC}

/-- C10: `unknown_fields` only rewrites the catch-all component of the
object-shaped and array-shaped interpretations (their known fields are kept);
the meanings, namespaces and scalar components are unchanged, and a kind with
neither interpretation is left entirely unchanged. -/
theorem C10_unknown_fields_frame (d : Definition) (u : Option Kind) :
    (d.unknown_fields u).meaning = d.meaning ∧
    (d.unknown_fields u).log_namespaces = d.log_namespaces ∧
    (d.unknown_fields u).kind.bytes = d.kind.bytes ∧
    (d.unknown_fields u).kind.integer = d.kind.integer ∧
    (d.unknown_fields u).kind.boolean = d.kind.boolean ∧
    (d.unknown_fields u).kind.knull = d.kind.knull ∧
    (d.unknown_fields u).kind.object = (d.kind.object).map (fun oc => oc.set_unknown u) ∧
    (d.unknown_fields u).kind.array = (d.kind.array).map (fun ac => ac.set_unknown u) ∧
    (∀ oc : OColl, (oc.set_unknown u).known = oc.known) ∧
    (∀ ac : AColl, (ac.set_unknown u).known = ac.known) ∧
    ((d.kind.object = none ∧ d.kind.array = none) → d.unknown_fields u = d) := by
  have hoc : ∀ oc : OColl, (oc.set_unknown u).known = oc.known := by
    intro oc; obtain ⟨kn, un⟩ := oc; rfl
  have hac : ∀ ac : AColl, (ac.set_unknown u).known = ac.known := by
    intro ac; obtain ⟨kn, un⟩ := ac; rfl
  obtain ⟨k, mm, ns⟩ := d
  obtain ⟨b, i, bo, nl, a, o⟩ := k
  cases a <;> cases o <;>
    simp [Definition.unknown_fields, Kind.object, Kind.array, Kind.withObject,
      Kind.withArray, Kind.bytes, Kind.integer, Kind.boolean, Kind.knull,
      OColl.set_unknown, AColl.set_unknown, OColl.known, AColl.known, hoc, hac]

/-- Witness for C10: on a purely scalar definition `unknown_fields` is the
identity. -/
theorem C10_unknown_fields_frame_witness :
    (Definition.empty_kind Kind.booleanKind ∅).unknown_fields (some Kind.bytesKind) =
      Definition.empty_kind Kind.booleanKind ∅ :=
  (C10_unknown_fields_frame (Definition.empty_kind Kind.booleanKind ∅)
      (some Kind.bytesKind)).2.2.2.2.2.2.2.2.2.2 ⟨rfl, rfl⟩

end VectorSchema
